import Mathlib

/-!
A verification development for the `fileshaker` repository.

This file gives a shallow embedding of the algorithmic core of the
repository's deduplication scripts and proves (or refutes) the claims of
the specification against it:

* `src/cli/v2/dedupe/script.py` — exact-duplicate resolver:
  `load_cache` / `get_file_hash` (the hash cache), `compute_file_hash`,
  `files_are_identical`, `find_duplicates` and the JSON output of `main`.
* `src/cli/copy_and_filter.py` — near-duplicate clusterer:
  `group_similar_images` (sorted-order chaining) and the canonical-member
  selection in `copy_files`.
* `src/cli/v2/diff/script.py` — cross-tree differ: `find_unique_files`
  and its `compare_files` primitive.

Files are modelled as immutable snapshots: `path` and the `stat` results
(`size`, `mtime`), together with the file's byte content, which is
`none` when every attempt to open/read the file fails (the scripts'
exception paths).  Bytes are modelled as `Nat`.
-/

namespace Fileshaker

open List (Perm)

open scoped List

/-- A file as seen by the scripts: its path string, its `stat` data
(size in bytes, modification time), and its byte content.  `content = none`
models a file whose `open`/`read` raises (unreadable), in which case every
hashing or byte-comparison attempt on it fails. -/
structure DFile where
  path : String
  size : Nat
  mtime : Nat
  content : Option (List Nat)
deriving DecidableEq, Repr

/-! ### `files_are_identical` (dedupe script, lines 52-64)

The python loop reads 8192-byte chunks from both files, returns `False` as
soon as two chunks differ and `True` when the first file's chunk is empty
(both files exhausted — the inequality test has already ruled out the other
file having bytes left).  The loop runs at most `⌈len/8192⌉ + 1 ≤ len + 1`
times, so a fuel of `length + 1` is an upper bound on its iterations and
the fuel-0 branch below is unreachable from `filesAreIdentical`. -/

def chunkLoop : Nat → List Nat → List Nat → Bool
  | 0, _, _ => false
  | fuel + 1, b1, b2 =>
    if b1.take 8192 ≠ b2.take 8192 then false
    else if b1.take 8192 = [] then true
    else chunkLoop fuel (b1.drop 8192) (b2.drop 8192)

/-- `files_are_identical` (dedupe script lines 52-64): chunkwise comparison
of the two files' bytes; any I/O failure (modelled as a `none` content)
makes it return `False` via the `except` branch. -/
def filesAreIdentical (f1 f2 : DFile) : Bool :=
  match f1.content, f2.content with
  | some b1, some b2 => chunkLoop (b1.length + 1) b1 b2
  | _, _ => false

theorem chunkLoop_eq_iff (fuel : Nat) :
    ∀ b1 b2 : List Nat, b1.length < fuel → (chunkLoop fuel b1 b2 = true ↔ b1 = b2) := by
  induction fuel with
  | zero => intro b1 b2 h; omega
  | succ n ih =>
    intro b1 b2 h
    by_cases hne : b1.take 8192 = b2.take 8192
    · by_cases hnil : b1.take 8192 = []
      · have hb1 : b1 = [] := by
          cases b1 with
          | nil => rfl
          | cons x xs => simp [List.take] at hnil
        have hb2 : b2 = [] := by
          rw [hb1] at hne
          cases b2 with
          | nil => rfl
          | cons x xs => simp [List.take] at hne
        simp [chunkLoop, hne, hnil, hb1, hb2]
      · have hb1ne : b1 ≠ [] := by
          intro hh; apply hnil; rw [hh]; simp
        have hlen : (b1.drop 8192).length < n := by
          have h1 : 0 < b1.length := List.length_pos.mpr hb1ne
          have h2 : (b1.drop 8192).length = b1.length - 8192 := List.length_drop 8192 b1
          omega
        have hrec := ih (b1.drop 8192) (b2.drop 8192) hlen
        simp only [chunkLoop]
        rw [if_neg (not_not_intro hne), if_neg hnil, hrec]
        constructor
        · intro hdrop
          have : b1.take 8192 ++ b1.drop 8192 = b2.take 8192 ++ b2.drop 8192 := by
            rw [hne, hdrop]
          simpa [List.take_append_drop] using this
        · intro hh; rw [hh]
    · have : b1 ≠ b2 := by intro hh; exact hne (by rw [hh])
      simp [chunkLoop, hne, this]

/-- Core specification of the byte-comparison loop: with enough fuel it
decides exact equality of the two byte lists. -/
theorem filesAreIdentical_iff (f1 f2 : DFile) (b1 b2 : List Nat)
    (h1 : f1.content = some b1) (h2 : f2.content = some b2) :
    (filesAreIdentical f1 f2 = true ↔ b1 = b2) := by
  unfold filesAreIdentical
  rw [h1, h2]
  exact chunkLoop_eq_iff (b1.length + 1) b1 b2 (Nat.lt_succ_self _)

/-- C10: the resolver's byte-comparison primitive `files_are_identical`
returns `True` iff the two files' full byte contents are exactly equal
(assuming both files are readable); in particular, when one file's content
is a strict prefix of the other's (the first is an initial segment of the
second but shorter), it returns `False`. -/
theorem C10_files_are_identical_iff_equal (f1 f2 : DFile) (b1 b2 : List Nat)
    (h1 : f1.content = some b1) (h2 : f2.content = some b2) :
    (filesAreIdentical f1 f2 = true ↔ b1 = b2) ∧
    (b1.length < b2.length → b2.take b1.length = b1 → filesAreIdentical f1 f2 = false) := by
  refine ⟨filesAreIdentical_iff f1 f2 b1 b2 h1 h2, ?_⟩
  intro hlt htk
  have hne : b1 ≠ b2 := by
    intro hh; rw [hh] at hlt; omega
  have := filesAreIdentical_iff f1 f2 b1 b2 h1 h2
  cases hb : filesAreIdentical f1 f2 with
  | false => rfl
  | true => exact absurd (this.mp hb) hne

/-- Witness for C10 at concrete files: content `[1,2]` versus `[1,2,3]`
(a strict initial segment) compares unequal. -/
theorem C10_files_are_identical_iff_equal_witness :
    (DFile.mk "a" 2 0 (some [1, 2])).content = some [1, 2] ∧
    (DFile.mk "b" 3 0 (some [1, 2, 3])).content = some [1, 2, 3] ∧
    ((filesAreIdentical (DFile.mk "a" 2 0 (some [1, 2])) (DFile.mk "b" 3 0 (some [1, 2, 3])) = true ↔
        ([1, 2] : List Nat) = [1, 2, 3]) ∧
      (([1, 2] : List Nat).length < ([1, 2, 3] : List Nat).length →
        ([1, 2, 3] : List Nat).take ([1, 2] : List Nat).length = [1, 2] →
        filesAreIdentical (DFile.mk "a" 2 0 (some [1, 2])) (DFile.mk "b" 3 0 (some [1, 2, 3])) = false)) :=
  ⟨rfl, rfl,
    C10_files_are_identical_iff_equal (DFile.mk "a" 2 0 (some [1, 2]))
      (DFile.mk "b" 3 0 (some [1, 2, 3])) [1, 2] [1, 2, 3] rfl rfl⟩

/-! ### `find_duplicates` (dedupe script, lines 66-113)

Python dicts preserve insertion order and `setdefault(k, []).append(v)`
appends at the end of the bucket of `k`; `dictAppend` models exactly that
on an association list.  `file_sizes[str(path)]` is modelled by the
`size` field of the entry itself (each filesystem path is enumerated once
by `rglob`, and the stored value is the same `stat` size either way). -/

def dictAppend {κ β : Type} [DecidableEq κ] : List (κ × List β) → κ → β → List (κ × List β)
  | [], k, v => [(k, [v])]
  | (k', vs) :: rest, k, v =>
    if k' = k then (k', vs ++ [v]) :: rest else (k', vs) :: dictAppend rest k v

/-- All values of an insertion-ordered dict, in bucket order (`.values()`
flattened). -/
def joinVals {κ β : Type} (m : List (κ × List β)) : List β := (m.map Prod.snd).flatten

/-- Lines 67-74: `files_by_size`, grouping the scanned files (in scan
order) by their `stat` size. -/
def filesBySize (files : List DFile) : List (Nat × List DFile) :=
  files.foldl (fun m f => dictAppend m f.size f) []

/-- Line 78: the size buckets holding more than one file. -/
def potentialDups (files : List DFile) : List (List DFile) :=
  ((filesBySize files).map Prod.snd).filter (fun l => l.length > 1)

/-- Line 79: the files that will be hashed, i.e. all members of
multi-member size buckets, flattened in bucket order. -/
def filesToCheck (files : List DFile) : List DFile := (potentialDups files).flatten

/-- Lines 81-87: `hash_to_files`.  `get_file_hash` is passed in as an
oracle `hashOf` (it may consult the persistent cache, so its result is not
necessarily a function of the bytes alone); `none` models the `None`
returned when the file cannot be read (a sha256 hexdigest is a nonempty
string, so the `if filehash:` guard is exactly a success test). -/
def hashToFiles {α : Type} [DecidableEq α] (hashOf : DFile → Option α)
    (files : List DFile) : List (α × List DFile) :=
  files.foldl (fun m f => match hashOf f with | some h => dictAppend m h f | none => m) []

/-- Lines 96-109: the `while file_list:` collision-resolution loop.
`pop()` takes the last element as `reference`; every remaining file that
compares byte-identical joins its group (in list order) and is removed;
the loop repeats on the remainder.  Each iteration consumes at least the
reference, so fuel `length` bounds the iterations and the fuel-0 branch is
unreachable from `resolveBucket`. -/
def resolveBucketLoop : Nat → List DFile → List (List DFile) × List DFile
  | 0, _ => ([], [])
  | _ + 1, [] => ([], [])
  | fuel + 1, f :: fs =>
    let ref := (f :: fs).getLast (List.cons_ne_nil f fs)
    let rest := (f :: fs).dropLast
    let grp := ref :: rest.filter (fun g => filesAreIdentical ref g)
    let remaining := rest.filter (fun g => ! filesAreIdentical ref g)
    let r := resolveBucketLoop fuel remaining
    if grp.length > 1 then (grp :: r.1, r.2) else (r.1, ref :: r.2)

def resolveBucket (fl : List DFile) : List (List DFile) × List DFile :=
  resolveBucketLoop fl.length fl

/-- Lines 89-111: iterate over `hash_to_files.values()`; a singleton hash
bucket goes straight to `unique_files`, a larger one through the
collision-resolution loop.  (An empty bucket never occurs: `dictAppend`
only creates nonempty buckets.) -/
def processBuckets : List (List DFile) → List (List DFile) × List DFile
  | [] => ([], [])
  | fl :: rest =>
    let r1 := if fl.length > 1 then resolveBucket fl else ([], fl)
    let r2 := processBuckets rest
    (r1.1 ++ r2.1, r1.2 ++ r2.2)

/-- `find_duplicates` (lines 66-113): returns the list of duplicate groups
and the list of unique files. -/
def findDuplicates {α : Type} [DecidableEq α] (hashOf : DFile → Option α)
    (files : List DFile) : List (List DFile) × List DFile :=
  processBuckets ((hashToFiles hashOf (filesToCheck files)).map Prod.snd)

/-! Concrete example files used by witnesses and counterexamples, and the
identity digest (`α := List Nat`), a collision-free stand-in for sha256
whose values witnesses can evaluate. -/

def contentHash : DFile → Option (List Nat) := fun f => f.content

def egUnique : DFile := ⟨"u", 5, 0, some [1, 2, 3, 4, 5]⟩
def egOne : DFile := ⟨"one", 7, 10, some [1, 1, 1, 1, 1, 1, 1]⟩
def egTwo : DFile := ⟨"two", 7, 11, some [2, 2, 2, 2, 2, 2, 2]⟩
def egId1 : DFile := ⟨"c1", 4, 0, some [9, 9, 9, 9]⟩
def egId2 : DFile := ⟨"c2", 4, 1, some [9, 9, 9, 9]⟩
def egId3 : DFile := ⟨"c3", 4, 2, some [9, 9, 9, 9]⟩

/-- C3 (code bug): a file of unique size (`egUnique`, the only 5-byte
file) is indeed never hashed — it is excluded from `files_to_check` — but
it is then also absent from the `unique_files` output (and from every
duplicate group): `find_duplicates` silently drops it, so it is never
copied, contradicting the script's stated behaviour of keeping one copy of
every file. -/
theorem C3_unique_size_file_dropped :
    filesToCheck [egUnique, egOne, egTwo] = [egOne, egTwo] ∧
    findDuplicates contentHash [egUnique, egOne, egTwo] = ([], [egOne, egTwo]) := by
  decide

/-- Any two files the byte-comparison loop groups together have the same
(readable) content: a bucket group is its reference plus the files that
compared `files_are_identical` to it. -/
theorem filesAreIdentical_some (f1 f2 : DFile) (h : filesAreIdentical f1 f2 = true) :
    ∃ bs : List Nat, f1.content = some bs ∧ f2.content = some bs := by
  unfold filesAreIdentical at h
  cases h1 : f1.content with
  | none => rw [h1] at h; simp at h
  | some b1 =>
    cases h2 : f2.content with
    | none => rw [h1, h2] at h; simp at h
    | some b2 =>
      rw [h1, h2] at h
      have heq := (chunkLoop_eq_iff (b1.length + 1) b1 b2 (Nat.lt_succ_self _)).mp h
      exact ⟨b1, rfl, by rw [← heq]⟩

theorem resolveBucketLoop_mem_groups (fuel : Nat) :
    ∀ fl g, g ∈ (resolveBucketLoop fuel fl).1 →
      ∃ bs : List Nat, ∀ f ∈ g, f.content = some bs := by
  induction fuel with
  | zero => intro fl g hg; simp [resolveBucketLoop] at hg
  | succ n ih =>
    intro fl g hg
    match fl with
    | [] => simp [resolveBucketLoop] at hg
    | f :: fs =>
      simp only [resolveBucketLoop] at hg
      split at hg
      · rcases List.mem_cons.mp hg with hgrp | hrec
        · subst hgrp
          rename_i hlen
          set ref := (f :: fs).getLast (List.cons_ne_nil f fs) with href
          have hne : (f :: fs).dropLast.filter (fun g => filesAreIdentical ref g) ≠ [] := by
            intro hnil
            rw [hnil] at hlen
            simp at hlen
          obtain ⟨m, hm⟩ := List.exists_mem_of_ne_nil _ hne
          have hid : filesAreIdentical ref m = true := (List.mem_filter.mp hm).2
          obtain ⟨bs, hrefc, _⟩ := filesAreIdentical_some ref m hid
          refine ⟨bs, ?_⟩
          intro x hx
          rcases List.mem_cons.mp hx with hxr | hxf
          · rw [hxr]; exact hrefc
          · have hxid : filesAreIdentical ref x = true := (List.mem_filter.mp hxf).2
            obtain ⟨bs', hrefc', hxc⟩ := filesAreIdentical_some ref x hxid
            rw [hrefc] at hrefc'
            rw [hxc, Option.some_inj.mp hrefc']
        · exact ih _ g hrec
      · exact ih _ g hg

theorem processBuckets_mem_groups :
    ∀ L g, g ∈ (processBuckets L).1 →
      ∃ fl ∈ L, fl.length > 1 ∧ g ∈ (resolveBucket fl).1 := by
  intro L
  induction L with
  | nil => intro g hg; simp [processBuckets] at hg
  | cons fl rest ih =>
    intro g hg
    simp only [processBuckets] at hg
    rw [List.mem_append] at hg
    cases hg with
    | inl h =>
      by_cases hl : fl.length > 1
      · exact ⟨fl, List.mem_cons_self fl rest, hl, by simpa [hl] using h⟩
      · simp [hl] at h
    | inr h =>
      obtain ⟨fl', hmem, hlen, hg'⟩ := ih g h
      exact ⟨fl', List.mem_cons_of_mem _ hmem, hlen, hg'⟩

/-- C1: any two files that `find_duplicates` places in the same duplicate
group have identical byte contents (both readable with the same bytes),
for every hash oracle — so even a crafted hash collision, or a lying
cache, cannot put two files with different bytes into one group. -/
theorem C1_same_group_byte_identical {α : Type} [DecidableEq α]
    (hashOf : DFile → Option α) (files : List DFile) (g : List DFile)
    (hg : g ∈ (findDuplicates hashOf files).1) (f1 : DFile) (h1 : f1 ∈ g)
    (f2 : DFile) (h2 : f2 ∈ g) :
    ∃ bs : List Nat, f1.content = some bs ∧ f2.content = some bs := by
  unfold findDuplicates at hg
  obtain ⟨fl, _, _, hg'⟩ := processBuckets_mem_groups _ g hg
  unfold resolveBucket at hg'
  obtain ⟨bs, hall⟩ := resolveBucketLoop_mem_groups fl.length fl g hg'
  exact ⟨bs, hall f1 h1, hall f2 h2⟩

/-- Witness for C1: two byte-identical files end up in one group and the
theorem yields their common content. -/
theorem C1_same_group_byte_identical_witness :
    ([egId2, egId1] ∈ (findDuplicates contentHash [egId1, egId2]).1 ∧
      egId2 ∈ [egId2, egId1] ∧ egId1 ∈ [egId2, egId1]) ∧
    ∃ bs : List Nat, egId2.content = some bs ∧ egId1.content = some bs :=
  ⟨⟨by decide, by decide, by decide⟩,
    C1_same_group_byte_identical contentHash [egId1, egId2] [egId2, egId1]
      (by decide) egId2 (by decide) egId1 (by decide)⟩

/-! ### The output of `find_duplicates` is a partition of the hashed files -/

theorem perm_append_swap {β : Type} (a b c d : List β) :
    (a ++ b) ++ (c ++ d) ~ (a ++ c) ++ (b ++ d) := by
  calc (a ++ b) ++ (c ++ d) = a ++ (b ++ (c ++ d)) := List.append_assoc a b (c ++ d)
    _ ~ a ++ (c ++ (b ++ d)) := List.Perm.append_left a (by
        calc b ++ (c ++ d) = (b ++ c) ++ d := (List.append_assoc b c d).symm
          _ ~ (c ++ b) ++ d := (List.perm_append_comm).append_right d
          _ = c ++ (b ++ d) := List.append_assoc c b d)
    _ = (a ++ c) ++ (b ++ d) := (List.append_assoc a c (b ++ d)).symm

theorem joinVals_dictAppend {κ β : Type} [DecidableEq κ] (m : List (κ × List β)) (k : κ) (v : β) :
    joinVals (dictAppend m k v) ~ v :: joinVals m := by
  induction m with
  | nil => simp [dictAppend, joinVals]
  | cons e rest ih =>
    obtain ⟨k', vs⟩ := e
    by_cases hk : k' = k
    · simp only [dictAppend, if_pos hk, joinVals, List.map_cons, List.flatten_cons]
      calc (vs ++ [v]) ++ (rest.map Prod.snd).flatten
          = vs ++ v :: (rest.map Prod.snd).flatten := by simp
        _ ~ v :: (vs ++ (rest.map Prod.snd).flatten) := List.perm_middle
    · simp only [dictAppend, if_neg hk, joinVals, List.map_cons, List.flatten_cons]
      calc vs ++ joinVals (dictAppend rest k v)
          ~ vs ++ v :: joinVals rest := List.Perm.append_left vs ih
        _ ~ v :: (vs ++ joinVals rest) := List.perm_middle

theorem joinVals_hashToFiles {α : Type} [DecidableEq α] (hashOf : DFile → Option α)
    (files : List DFile) :
    joinVals (hashToFiles hashOf files) ~ files.filter (fun f => (hashOf f).isSome) := by
  suffices h : ∀ m : List (α × List DFile),
      joinVals (files.foldl
        (fun m f => match hashOf f with | some h => dictAppend m h f | none => m) m) ~
        joinVals m ++ files.filter (fun f => (hashOf f).isSome) by
    simpa [hashToFiles, joinVals] using h []
  induction files with
  | nil => intro m; simp [joinVals]
  | cons f fs ih =>
    intro m
    simp only [List.foldl_cons]
    cases hh : hashOf f with
    | none =>
      simp only [hh]
      calc joinVals (fs.foldl _ m) ~ joinVals m ++ fs.filter (fun f => (hashOf f).isSome) := ih m
        _ = joinVals m ++ (f :: fs).filter (fun f => (hashOf f).isSome) := by
            simp [List.filter_cons, hh]
    | some hv =>
      simp only [hh]
      calc joinVals (fs.foldl _ (dictAppend m hv f))
          ~ joinVals (dictAppend m hv f) ++ fs.filter (fun f => (hashOf f).isSome) :=
            ih (dictAppend m hv f)
        _ ~ (f :: joinVals m) ++ fs.filter (fun f => (hashOf f).isSome) :=
            (joinVals_dictAppend m hv f).append_right _
        _ = f :: (joinVals m ++ fs.filter (fun f => (hashOf f).isSome)) := rfl
        _ ~ joinVals m ++ f :: fs.filter (fun f => (hashOf f).isSome) := List.perm_middle.symm
        _ = joinVals m ++ (f :: fs).filter (fun f => (hashOf f).isSome) := by
            simp [List.filter_cons, hh]

theorem resolveBucketLoop_perm (fuel : Nat) :
    ∀ fl : List DFile, fl.length ≤ fuel →
      ((resolveBucketLoop fuel fl).1.flatten ++ (resolveBucketLoop fuel fl).2) ~ fl := by
  induction fuel with
  | zero =>
    intro fl h
    have hnil : fl = [] := by cases fl with
      | nil => rfl
      | cons x xs => simp at h
    subst hnil
    simp [resolveBucketLoop]
  | succ n ih =>
    intro fl hlen
    match fl with
    | [] => simp [resolveBucketLoop]
    | f :: fs =>
      simp only [resolveBucketLoop]
      have hsplit : (f :: fs).dropLast ++ [(f :: fs).getLast (List.cons_ne_nil f fs)] = f :: fs :=
        List.dropLast_append_getLast (List.cons_ne_nil f fs)
      generalize hREF : (f :: fs).getLast (List.cons_ne_nil f fs) = ref at hsplit ⊢
      generalize hDL : (f :: fs).dropLast = rest at hsplit ⊢
      have hrestlen : rest.length = fs.length := by rw [← hDL]; simp
      have hremlen : (rest.filter (fun g => ! filesAreIdentical ref g)).length ≤ n := by
        have hfl := List.length_filter_le (fun g => ! filesAreIdentical ref g) rest
        simp only [List.length_cons] at hlen
        omega
      have hrec := ih _ hremlen
      have hbase : ref :: rest ~ f :: fs := by
        have h := @List.perm_middle DFile ref rest []
        rw [List.append_nil] at h
        rw [hsplit] at h
        exact h.symm
      split
      · simp only [List.flatten_cons]
        calc ((ref :: rest.filter (fun g => filesAreIdentical ref g)) ++
              (resolveBucketLoop n (rest.filter (fun g => ! filesAreIdentical ref g))).1.flatten) ++
              (resolveBucketLoop n (rest.filter (fun g => ! filesAreIdentical ref g))).2
            = (ref :: rest.filter (fun g => filesAreIdentical ref g)) ++
              ((resolveBucketLoop n (rest.filter (fun g => ! filesAreIdentical ref g))).1.flatten ++
               (resolveBucketLoop n (rest.filter (fun g => ! filesAreIdentical ref g))).2) :=
              List.append_assoc _ _ _
          _ ~ (ref :: rest.filter (fun g => filesAreIdentical ref g)) ++
              rest.filter (fun g => ! filesAreIdentical ref g) := List.Perm.append_left _ hrec
          _ = ref :: (rest.filter (fun g => filesAreIdentical ref g) ++
              rest.filter (fun g => ! filesAreIdentical ref g)) := rfl
          _ ~ ref :: rest := List.Perm.cons _ (List.filter_append_perm _ _)
          _ ~ f :: fs := hbase
      · rename_i hgl
        have hfilnil : rest.filter (fun g => filesAreIdentical ref g) = [] := by
          by_contra hne
          have hpos : 0 < (rest.filter (fun g => filesAreIdentical ref g)).length :=
            List.length_pos.mpr hne
          simp only [List.length_cons, gt_iff_lt, not_lt] at hgl
          omega
        have hremid : rest.filter (fun g => ! filesAreIdentical ref g) = rest := by
          rw [List.filter_eq_self]
          intro a ha
          have h0 := List.filter_eq_nil_iff.mp hfilnil a ha
          simp only [Bool.not_eq_true] at h0 ⊢
          simp [h0]
        calc (resolveBucketLoop n (rest.filter (fun g => ! filesAreIdentical ref g))).1.flatten ++
              ref :: (resolveBucketLoop n (rest.filter (fun g => ! filesAreIdentical ref g))).2
            ~ ref :: ((resolveBucketLoop n (rest.filter (fun g => ! filesAreIdentical ref g))).1.flatten ++
              (resolveBucketLoop n (rest.filter (fun g => ! filesAreIdentical ref g))).2) :=
              List.perm_middle
          _ ~ ref :: rest.filter (fun g => ! filesAreIdentical ref g) := List.Perm.cons _ hrec
          _ = ref :: rest := by rw [hremid]
          _ ~ f :: fs := hbase

theorem processBuckets_perm : ∀ L : List (List DFile),
    ((processBuckets L).1.flatten ++ (processBuckets L).2) ~ L.flatten := by
  intro L
  induction L with
  | nil => simp [processBuckets]
  | cons fl rest ih =>
    simp only [processBuckets, List.flatten_cons, List.flatten_append]
    have h1 : ((if fl.length > 1 then resolveBucket fl else ([], fl)).1.flatten ++
        (if fl.length > 1 then resolveBucket fl else ([], fl)).2) ~ fl := by
      by_cases hl : fl.length > 1
      · rw [if_pos hl]; exact resolveBucketLoop_perm fl.length fl (Nat.le_refl _)
      · rw [if_neg hl]; simp
    calc ((if fl.length > 1 then resolveBucket fl else ([], fl)).1.flatten ++
            (processBuckets rest).1.flatten) ++
          ((if fl.length > 1 then resolveBucket fl else ([], fl)).2 ++ (processBuckets rest).2)
        ~ ((if fl.length > 1 then resolveBucket fl else ([], fl)).1.flatten ++
            (if fl.length > 1 then resolveBucket fl else ([], fl)).2) ++
          ((processBuckets rest).1.flatten ++ (processBuckets rest).2) := perm_append_swap _ _ _ _
      _ ~ fl ++ rest.flatten := List.Perm.append h1 ih

/-- The two outputs of `find_duplicates` together are a permutation of the
successfully hashed candidate files. -/
theorem findDuplicates_perm {α : Type} [DecidableEq α] (hashOf : DFile → Option α)
    (files : List DFile) :
    ((findDuplicates hashOf files).1.flatten ++ (findDuplicates hashOf files).2) ~
      (filesToCheck files).filter (fun f => (hashOf f).isSome) := by
  unfold findDuplicates
  exact (processBuckets_perm ((hashToFiles hashOf (filesToCheck files)).map Prod.snd)).trans
    (joinVals_hashToFiles hashOf (filesToCheck files))

theorem flatten_sublist_of_sublist {β : Type} {L1 L2 : List (List β)} (h : L1 <+ L2) :
    L1.flatten <+ L2.flatten := by
  induction h with
  | slnil => exact List.Sublist.refl _
  | cons l _ ih => exact ih.trans (List.sublist_append_right l _)
  | cons₂ l _ ih => exact ih.append_left l

theorem filesBySize_eq_hashToFiles (files : List DFile) :
    filesBySize files = hashToFiles (fun f => some f.size) files := rfl

theorem filesToCheck_nodup (files : List DFile) (hnd : files.Nodup) :
    (filesToCheck files).Nodup := by
  have h1 : joinVals (filesBySize files) ~ files := by
    rw [filesBySize_eq_hashToFiles]
    have := joinVals_hashToFiles (fun f => some f.size) files
    simpa using this
  have h2 : filesToCheck files <+ joinVals (filesBySize files) :=
    flatten_sublist_of_sublist (List.filter_sublist _)
  exact (h1.symm.nodup hnd).sublist h2

/-- C9: the resolver's output partitions its hashed candidates — every
file of a multi-file size bucket whose hash succeeded appears exactly once
in the duplicate groups and unique files taken together. -/
theorem C9_output_partitions_hashed {α : Type} [DecidableEq α] (hashOf : DFile → Option α)
    (files : List DFile) (hnd : files.Nodup) (f : DFile)
    (hf : f ∈ filesToCheck files) (hs : (hashOf f).isSome) :
    ((findDuplicates hashOf files).1.flatten ++ (findDuplicates hashOf files).2).count f = 1 := by
  rw [(findDuplicates_perm hashOf files).count_eq]
  exact List.count_eq_one_of_mem ((filesToCheck_nodup files hnd).filter _)
    (List.mem_filter.mpr ⟨hf, hs⟩)

/-- Witness for C9 at two byte-identical files. -/
theorem C9_output_partitions_hashed_witness :
    ([egId1, egId2].Nodup ∧ egId1 ∈ filesToCheck [egId1, egId2] ∧
      (contentHash egId1).isSome) ∧
    ((findDuplicates contentHash [egId1, egId2]).1.flatten ++
        (findDuplicates contentHash [egId1, egId2]).2).count egId1 = 1 :=
  ⟨⟨by decide, by decide, by decide⟩,
    C9_output_partitions_hashed contentHash [egId1, egId2] (by decide) egId1
      (by decide) (by decide)⟩

/-! ### The run's JSON output (dedupe script `main`, lines 144-167)

`output_data` has exactly two keys: `summary` (six integer statistics) and
`duplicates`.  There is no field for unreadable files anywhere in the
script's output; such files are only mentioned in a log warning. -/

structure DedupSummary where
  total_duplicate_groups : Nat
  total_duplicate_files : Nat
  total_redundant_files : Nat
  total_redundant_size_bytes : Nat
  total_files_to_copy : Nat
  total_size_to_copy_bytes : Nat
deriving DecidableEq, Repr

structure OutputData where
  summary : DedupSummary
  duplicates : List (List DFile)
deriving DecidableEq, Repr

/-- Lines 144-167: the summary statistics and the JSON payload.  (A
`group[0]` access on an empty group would raise in python; groups are
nonempty by construction and the `0` default is never read.) -/
def buildOutput (dups : List (List DFile)) (uniques : List DFile) : OutputData :=
  { summary :=
      { total_duplicate_groups := dups.length
        total_duplicate_files := (dups.map List.length).sum
        total_redundant_files := (dups.map (fun g => g.length - 1)).sum
        total_redundant_size_bytes := (dups.map (fun g => (g.tail.map DFile.size).sum)).sum
        total_files_to_copy := uniques.length + dups.length
        total_size_to_copy_bytes := (uniques.map DFile.size).sum +
          (dups.map (fun g => match g with | [] => 0 | h :: _ => h.size)).sum }
    duplicates := dups }

/-- Every file path recorded anywhere in the JSON output. -/
def reportPaths (o : OutputData) : List String := o.duplicates.flatten.map DFile.path

/-- An unreadable file sharing its size bucket with two identical files. -/
def egBad : DFile := ⟨"bad", 4, 3, none⟩

/-- Counterexample to C7: the unreadable file `egBad` (its hash
computation fails) is indeed excluded from grouping and the run continues,
but it is NOT "recorded separately in the report's unreadable_files
output": the report produced by `main` consists of the summary statistics
and the `duplicates` key only, and `egBad`'s path occurs nowhere in it
(nor among the unique files); the script merely logs a warning. -/
theorem C7_counterexample_no_unreadable_record :
    contentHash egBad = none ∧
    (buildOutput (findDuplicates contentHash [egBad, egId1, egId2]).1
        (findDuplicates contentHash [egBad, egId1, egId2]).2).duplicates = [[egId2, egId1]] ∧
    "bad" ∉ reportPaths (buildOutput (findDuplicates contentHash [egBad, egId1, egId2]).1
        (findDuplicates contentHash [egBad, egId1, egId2]).2) ∧
    egBad ∉ (findDuplicates contentHash [egBad, egId1, egId2]).2 := by
  decide

/-- C7 as amended: when a file's hashing fails (`get_file_hash` returns
`None`), the run continues and the file joins no duplicate group and is
not classified unique; but it is only logged, not recorded in the JSON
report, which has no unreadable_files field. -/
theorem C7_amended_unreadable_excluded {α : Type} [DecidableEq α]
    (hashOf : DFile → Option α) (files : List DFile) (f : DFile)
    (hfail : hashOf f = none) :
    f ∉ (findDuplicates hashOf files).1.flatten ∧
    f ∉ (findDuplicates hashOf files).2 := by
  have hperm := findDuplicates_perm hashOf files
  have hnot : f ∉ (filesToCheck files).filter (fun g => (hashOf g).isSome) := by
    intro hmem
    have h2 := (List.mem_filter.mp hmem).2
    rw [hfail] at h2
    simp at h2
  constructor
  · intro hmem
    exact hnot (hperm.mem_iff.mp (List.mem_append.mpr (Or.inl hmem)))
  · intro hmem
    exact hnot (hperm.mem_iff.mp (List.mem_append.mpr (Or.inr hmem)))

/-- Witness for the amended C7 at the concrete unreadable file. -/
theorem C7_amended_unreadable_excluded_witness :
    contentHash egBad = none ∧
    (egBad ∉ (findDuplicates contentHash [egBad, egId1, egId2]).1.flatten ∧
      egBad ∉ (findDuplicates contentHash [egBad, egId1, egId2]).2) :=
  ⟨rfl, C7_amended_unreadable_excluded contentHash [egBad, egId1, egId2] egBad rfl⟩

/-! ### Bucket characterization of the insertion-ordered dicts

Both `files_by_size` and `hash_to_files` are built by the same
`setdefault(k, []).append(v)` pattern over a key that may be absent
(`get_file_hash` returning `None`); each resulting bucket is exactly the
input filtered to that key, in input order, and keys are distinct. -/

def keyedStep {κ β : Type} [DecidableEq κ] (keyFn : β → Option κ)
    (m : List (κ × List β)) (f : β) : List (κ × List β) :=
  match keyFn f with
  | some k => dictAppend m k f
  | none => m

def keyedDict {κ β : Type} [DecidableEq κ] (keyFn : β → Option κ) (l : List β) :
    List (κ × List β) :=
  l.foldl (keyedStep keyFn) []

theorem hashToFiles_eq_keyedDict {α : Type} [DecidableEq α] (hashOf : DFile → Option α)
    (files : List DFile) : hashToFiles hashOf files = keyedDict hashOf files := rfl

theorem filesBySize_eq_keyedDict (files : List DFile) :
    filesBySize files = keyedDict (fun f => some f.size) files := rfl

theorem dictAppend_of_key_not_mem {κ β : Type} [DecidableEq κ]
    (m : List (κ × List β)) (k : κ) (v : β) (h : k ∉ m.map Prod.fst) :
    dictAppend m k v = m ++ [(k, [v])] := by
  induction m with
  | nil => rfl
  | cons e rest ih =>
    obtain ⟨q, vs⟩ := e
    simp only [List.map_cons, List.mem_cons, not_or] at h
    simp only [dictAppend, List.cons_append]
    rw [if_neg (fun hh => h.1 hh.symm), ih h.2]

theorem dictAppend_keys {κ β : Type} [DecidableEq κ]
    (m : List (κ × List β)) (k : κ) (v : β) :
    (dictAppend m k v).map Prod.fst =
      if k ∈ m.map Prod.fst then m.map Prod.fst else m.map Prod.fst ++ [k] := by
  induction m with
  | nil => simp [dictAppend]
  | cons e rest ih =>
    obtain ⟨q, vs⟩ := e
    by_cases hq : q = k
    · subst hq
      simp [dictAppend]
    · simp only [dictAppend, if_neg hq, List.map_cons, ih]
      by_cases hk : k ∈ rest.map Prod.fst
      · rw [if_pos hk, if_pos (by simp [hk])]
      · rw [if_neg hk, if_neg (by simp [hk]; exact fun hh => hq hh.symm)]
        rfl

theorem dictAppend_mem {κ β : Type} [DecidableEq κ] (k : κ) (v : β) :
    ∀ m : List (κ × List β), (m.map Prod.fst).Nodup → ∀ p ∈ dictAppend m k v,
      (p ∈ m ∧ p.1 ≠ k) ∨ (∃ vs, (k, vs) ∈ m ∧ p = (k, vs ++ [v])) ∨
        (k ∉ m.map Prod.fst ∧ p = (k, [v])) := by
  intro m
  induction m with
  | nil =>
    intro _ p hp
    simp only [dictAppend, List.mem_singleton] at hp
    right; right; exact ⟨by simp, hp⟩
  | cons e rest ih =>
    intro hnd p hp
    obtain ⟨q, vs⟩ := e
    simp only [List.map_cons, List.nodup_cons] at hnd
    by_cases hq : q = k
    · subst hq
      simp only [dictAppend, if_pos rfl] at hp
      rcases List.mem_cons.mp hp with hpe | hpr
      · right; left; exact ⟨vs, List.mem_cons_self _ _, hpe⟩
      · left
        refine ⟨List.mem_cons_of_mem _ hpr, ?_⟩
        intro hh
        exact hnd.1 (hh ▸ List.mem_map_of_mem Prod.fst hpr)
    · simp only [dictAppend, if_neg hq] at hp
      rcases List.mem_cons.mp hp with hpe | hpr
      · subst hpe
        left
        exact ⟨List.mem_cons_self _ _, hq⟩
      · rcases ih hnd.2 p hpr with h1 | h2 | h3
        · left; exact ⟨List.mem_cons_of_mem _ h1.1, h1.2⟩
        · right; left
          obtain ⟨vs', hvs', hpe'⟩ := h2
          exact ⟨vs', List.mem_cons_of_mem _ hvs', hpe'⟩
        · right; right
          refine ⟨?_, h3.2⟩
          simp only [List.map_cons, List.mem_cons, not_or]
          exact ⟨fun hh => hq hh.symm, h3.1⟩

theorem keyedStep_spec {κ β : Type} [DecidableEq κ] (keyFn : β → Option κ) (done : List β)
    (m : List (κ × List β)) (f : β)
    (h1 : (m.map Prod.fst).Nodup)
    (h2 : ∀ p ∈ m, p.2 = done.filter (fun g => keyFn g == some p.1))
    (h3 : ∀ k : κ, k ∉ m.map Prod.fst → done.filter (fun g => keyFn g == some k) = []) :
    ((keyedStep keyFn m f).map Prod.fst).Nodup ∧
    (∀ p ∈ keyedStep keyFn m f, p.2 = (done ++ [f]).filter (fun g => keyFn g == some p.1)) ∧
    (∀ k : κ, k ∉ (keyedStep keyFn m f).map Prod.fst →
      (done ++ [f]).filter (fun g => keyFn g == some k) = []) := by
  cases hkf : keyFn f with
  | none =>
    simp only [keyedStep, hkf]
    refine ⟨h1, ?_, ?_⟩
    · intro p hp
      rw [h2 p hp, List.filter_append]
      have hf : [f].filter (fun g => keyFn g == some p.1) = [] := by simp [hkf]
      rw [hf, List.append_nil]
    · intro k hk
      rw [List.filter_append, h3 k hk]
      simp [hkf]
  | some kf =>
    simp only [keyedStep, hkf]
    have hsingle : ∀ k : κ, [f].filter (fun g => keyFn g == some k) =
        if kf = k then [f] else [] := by
      intro k
      by_cases hk : kf = k
      · subst hk; simp [hkf]
      · simp [hkf, hk]
    by_cases hmem : kf ∈ m.map Prod.fst
    · refine ⟨?_, ?_, ?_⟩
      · rw [dictAppend_keys, if_pos hmem]; exact h1
      · intro p hp
        rcases dictAppend_mem kf f m h1 p hp with ⟨hpm, hpne⟩ | ⟨vs, hvs, hpe⟩ | ⟨hnk, _⟩
        · rw [h2 p hpm, List.filter_append, hsingle p.1,
            if_neg (fun hh => hpne hh.symm), List.append_nil]
        · subst hpe
          have hvs2 := h2 (kf, vs) hvs
          simp only at hvs2 ⊢
          rw [hvs2, List.filter_append, hsingle kf, if_pos rfl]
        · exact absurd hmem hnk
      · intro k hk
        rw [dictAppend_keys, if_pos hmem] at hk
        rw [List.filter_append, h3 k hk, hsingle k,
          if_neg (fun (hh : kf = k) => hk (hh ▸ hmem)), List.append_nil]
    · rw [dictAppend_of_key_not_mem m kf f hmem]
      refine ⟨?_, ?_, ?_⟩
      · rw [List.map_append]
        rw [List.nodup_append]
        exact ⟨h1, by simp, fun a ha hb => by
          simp only [List.map_cons, List.map_nil, List.mem_singleton] at hb
          exact hmem (hb ▸ ha)⟩
      · intro p hp
        rcases List.mem_append.mp hp with hpm | hpe
        · have hpne : p.1 ≠ kf := fun hh => hmem (hh ▸ List.mem_map_of_mem Prod.fst hpm)
          rw [h2 p hpm, List.filter_append, hsingle p.1,
            if_neg (fun hh => hpne hh.symm), List.append_nil]
        · simp only [List.mem_singleton] at hpe
          subst hpe
          simp only
          rw [List.filter_append, h3 kf hmem, hsingle kf, if_pos rfl, List.nil_append]
      · intro k hk
        rw [List.map_append] at hk
        simp only [List.map_cons, List.map_nil, List.mem_append, List.mem_singleton,
          not_or] at hk
        rw [List.filter_append, h3 k hk.1, hsingle k,
          if_neg (fun (hh : kf = k) => hk.2 hh.symm), List.append_nil]

theorem keyedDict_spec {κ β : Type} [DecidableEq κ] (keyFn : β → Option κ) (l : List β) :
    ((keyedDict keyFn l).map Prod.fst).Nodup ∧
    (∀ p ∈ keyedDict keyFn l, p.2 = l.filter (fun g => keyFn g == some p.1)) ∧
    (∀ k : κ, k ∉ (keyedDict keyFn l).map Prod.fst →
      l.filter (fun g => keyFn g == some k) = []) := by
  suffices h : ∀ (todo done : List β) (m : List (κ × List β)),
      (m.map Prod.fst).Nodup →
      (∀ p ∈ m, p.2 = done.filter (fun g => keyFn g == some p.1)) →
      (∀ k : κ, k ∉ m.map Prod.fst → done.filter (fun g => keyFn g == some k) = []) →
      (((todo.foldl (keyedStep keyFn) m).map Prod.fst).Nodup ∧
        (∀ p ∈ todo.foldl (keyedStep keyFn) m,
          p.2 = (done ++ todo).filter (fun g => keyFn g == some p.1)) ∧
        (∀ k : κ, k ∉ (todo.foldl (keyedStep keyFn) m).map Prod.fst →
          (done ++ todo).filter (fun g => keyFn g == some k) = [])) by
    have hres := h l [] [] (by simp) (by simp) (by intro k _; simp)
    simpa [keyedDict] using hres
  intro todo
  induction todo with
  | nil =>
    intro done m h1 h2 h3
    simp only [List.foldl_nil, List.append_nil]
    exact ⟨h1, h2, h3⟩
  | cons f rest ih =>
    intro done m h1 h2 h3
    simp only [List.foldl_cons]
    obtain ⟨s1, s2, s3⟩ := keyedStep_spec keyFn done m f h1 h2 h3
    have hres := ih (done ++ [f]) (keyedStep keyFn m f) s1 s2 s3
    simpa [List.append_assoc] using hres

theorem flatten_filter_eq_nil {β : Type} (q : β → Bool) :
    ∀ L : List (List β), (∀ l ∈ L, l.filter q = []) → L.flatten.filter q = [] := by
  intro L
  induction L with
  | nil => intro _; rfl
  | cons l rest ih =>
    intro h
    simp only [List.flatten_cons, List.filter_append]
    rw [h l (List.mem_cons_self _ _),
      ih (fun x hx => h x (List.mem_cons_of_mem _ hx)), List.append_nil]

theorem flatten_buckets_filter {κ β : Type} [DecidableEq κ] (keyFn : β → Option κ)
    (l : List β) (s : κ) :
    ∀ m : List (κ × List β), (m.map Prod.fst).Nodup →
      (∀ p ∈ m, p.2 = l.filter (fun g => keyFn g == some p.1)) →
      (s ∉ m.map Prod.fst → l.filter (fun g => keyFn g == some s) = []) →
      (m.map Prod.snd).flatten.filter (fun g => keyFn g == some s) =
        l.filter (fun g => keyFn g == some s) := by
  intro m
  induction m with
  | nil =>
    intro _ _ hmiss
    simp only [List.map_nil, List.flatten_nil, List.filter_nil]
    exact (hmiss (by simp)).symm
  | cons p rest ih =>
    intro hnd hbuck hmiss
    simp only [List.map_cons, List.flatten_cons, List.filter_append]
    simp only [List.map_cons, List.nodup_cons] at hnd
    by_cases hs : p.1 = s
    · have h1 : p.2.filter (fun g => keyFn g == some s) =
          l.filter (fun g => keyFn g == some s) := by
        rw [hbuck p (List.mem_cons_self _ _), hs, List.filter_filter]
        congr 1
        funext g
        cases keyFn g == some s <;> simp
      have h2 : (rest.map Prod.snd).flatten.filter (fun g => keyFn g == some s) = [] := by
        apply flatten_filter_eq_nil
        intro l1 hl1
        obtain ⟨p1, hp1, hpeq⟩ := List.mem_map.mp hl1
        rw [← hpeq, hbuck p1 (List.mem_cons_of_mem _ hp1), List.filter_filter]
        apply List.filter_eq_nil_iff.mpr
        intro a _
        have hne : p1.1 ≠ s := by
          intro hh
          apply hnd.1
          rw [hs, ← hh]
          exact List.mem_map_of_mem Prod.fst hp1
        simp only [Bool.and_eq_true, beq_iff_eq]
        rintro ⟨ha1, ha2⟩
        exact hne (Option.some_inj.mp (ha2.symm.trans ha1))
      rw [h1, h2, List.append_nil]
    · have h1 : p.2.filter (fun g => keyFn g == some s) = [] := by
        rw [hbuck p (List.mem_cons_self _ _), List.filter_filter]
        apply List.filter_eq_nil_iff.mpr
        intro a _
        simp only [Bool.and_eq_true, beq_iff_eq]
        rintro ⟨ha1, ha2⟩
        exact hs (Option.some_inj.mp (ha2.symm.trans ha1))
      rw [h1, List.nil_append]
      exact ih hnd.2 (fun p' hp' => hbuck p' (List.mem_cons_of_mem _ hp'))
        (fun hnot => hmiss (by
          simp only [List.map_cons, List.mem_cons, not_or]
          exact ⟨fun hh => hs hh.symm, hnot⟩))

theorem mem_filesToCheck_mem_files (files : List DFile) (x : DFile)
    (hx : x ∈ filesToCheck files) : x ∈ files := by
  have h1 : filesToCheck files <+ joinVals (filesBySize files) :=
    flatten_sublist_of_sublist (List.filter_sublist _)
  have h2 : joinVals (filesBySize files) ~ files := by
    rw [filesBySize_eq_hashToFiles]
    simpa using joinVals_hashToFiles (fun f => some f.size) files
  exact h2.mem_iff.mp (h1.subset hx)

theorem filter_size_joinVals (files : List DFile) (s : Nat) :
    (joinVals (filesBySize files)).filter (fun g => (some g.size : Option Nat) == some s) =
      files.filter (fun g => (some g.size : Option Nat) == some s) := by
  obtain ⟨hnd, hbuck, hmiss⟩ := keyedDict_spec (fun f : DFile => some f.size) files
  rw [filesBySize_eq_keyedDict]
  exact flatten_buckets_filter (fun f : DFile => some f.size) files s
    (keyedDict (fun f : DFile => some f.size) files) hnd hbuck (hmiss s)

/-- Shape of a duplicate group produced by the collision-resolution loop:
its first member is the popped reference — the LAST remaining element of
the bucket — so every other member occurs strictly before it. -/
theorem resolveBucketLoop_groups_shape (fuel : Nat) :
    ∀ fl g, g ∈ (resolveBucketLoop fuel fl).1 →
      ∃ c t, g = c :: t ∧ (∀ x ∈ g, x ∈ fl) ∧ (∀ x ∈ t, [x, c] <+ fl) := by
  induction fuel with
  | zero => intro fl g hg; simp [resolveBucketLoop] at hg
  | succ n ih =>
    intro fl g hg
    match fl with
    | [] => simp [resolveBucketLoop] at hg
    | f :: fs =>
      simp only [resolveBucketLoop] at hg
      have hsplit : (f :: fs).dropLast ++ [(f :: fs).getLast (List.cons_ne_nil f fs)] = f :: fs :=
        List.dropLast_append_getLast (List.cons_ne_nil f fs)
      have hsubrem : (f :: fs).dropLast.filter
          (fun g => ! filesAreIdentical ((f :: fs).getLast (List.cons_ne_nil f fs)) g) <+
          f :: fs :=
        (List.filter_sublist _).trans (List.dropLast_sublist _)
      split at hg
      · rcases List.mem_cons.mp hg with hgrp | hrec
        · refine ⟨(f :: fs).getLast (List.cons_ne_nil f fs),
            (f :: fs).dropLast.filter
              (fun g => filesAreIdentical ((f :: fs).getLast (List.cons_ne_nil f fs)) g),
            hgrp, ?_, ?_⟩
          · intro x hx
            rcases List.mem_cons.mp (hgrp ▸ hx) with hxr | hxf
            · rw [hxr]; exact List.getLast_mem _
            · exact (List.dropLast_sublist _).subset ((List.mem_filter.mp hxf).1)
          · intro x hx
            have hxd : x ∈ (f :: fs).dropLast := (List.mem_filter.mp hx).1
            have h1 : [x] <+ (f :: fs).dropLast := List.singleton_sublist.mpr hxd
            have h2 := h1.append
              (List.Sublist.refl [(f :: fs).getLast (List.cons_ne_nil f fs)])
            rw [hsplit] at h2
            exact h2
        · obtain ⟨c, t, hgt, hmem, hpairs⟩ := ih _ g hrec
          exact ⟨c, t, hgt, fun x hx => hsubrem.subset (hmem x hx),
            fun x hx => (hpairs x hx).trans hsubrem⟩
      · obtain ⟨c, t, hgt, hmem, hpairs⟩ := ih _ g hg
        exact ⟨c, t, hgt, fun x hx => hsubrem.subset (hmem x hx),
          fun x hx => (hpairs x hx).trans hsubrem⟩

/-- Counterexample to C4: three byte-identical files scanned in order
`c1, c2, c3` produce the single group `[c3, c1, c2]`: the canonical member
(the group's first entry, the one `main` copies as `group[0]`) is `egId3`,
the LAST in scan order, not the scan-first `egId1` the claim requires. -/
theorem C4_counterexample_canonical_not_scan_first :
    (findDuplicates contentHash [egId1, egId2, egId3]).1 = [[egId3, egId1, egId2]] ∧
    egId3 ≠ egId1 := by
  decide

/-- C4 as amended: in every duplicate group all members have equal
`size_bytes` (they are byte-identical, so "largest size" holds trivially),
and the canonical member — the group's first entry `group[0]` — is the
member scanned LAST among the group: every other member occurs strictly
before it in scan order.  `hwf` states that the `stat` size of a readable
file is the length of its bytes. -/
theorem C4_amended_canonical_largest_scan_last {α : Type} [DecidableEq α]
    (hashOf : DFile → Option α) (files : List DFile)
    (hwf : ∀ f ∈ files, ∀ bs : List Nat, f.content = some bs → bs.length = f.size)
    (g : List DFile) (hg : g ∈ (findDuplicates hashOf files).1) :
    ∃ c t, g = c :: t ∧ (∀ x ∈ t, x.size = c.size) ∧ (∀ x ∈ t, [x, c] <+ files) := by
  unfold findDuplicates at hg
  obtain ⟨fl, hflmem, hfllen, hgfl⟩ := processBuckets_mem_groups _ g hg
  obtain ⟨p, hpmem, hpeq⟩ := List.mem_map.mp hflmem
  obtain ⟨_, hbuck, _⟩ := keyedDict_spec hashOf (filesToCheck files)
  have hfl_eq : fl = (filesToCheck files).filter (fun f => hashOf f == some p.1) := by
    rw [← hpeq]
    exact hbuck p (by rw [← hashToFiles_eq_keyedDict]; exact hpmem)
  have hfl_sub : fl <+ filesToCheck files := by
    rw [hfl_eq]; exact List.filter_sublist _
  unfold resolveBucket at hgfl
  obtain ⟨c, t, hgt, hmemfl, hpairs⟩ := resolveBucketLoop_groups_shape fl.length fl g hgfl
  obtain ⟨bs, hcontent⟩ := resolveBucketLoop_mem_groups fl.length fl g hgfl
  have hmemfiles : ∀ x ∈ g, x ∈ files := fun x hx =>
    mem_filesToCheck_mem_files files x (hfl_sub.subset (hmemfl x hx))
  have hsize : ∀ x ∈ g, x.size = bs.length := fun x hx =>
    (hwf x (hmemfiles x hx) bs (hcontent x hx)).symm
  have hcmem : c ∈ g := by rw [hgt]; exact List.mem_cons_self _ _
  refine ⟨c, t, hgt, ?_, ?_⟩
  · intro x hx
    have hxg : x ∈ g := by rw [hgt]; exact List.mem_cons_of_mem _ hx
    rw [hsize x hxg, hsize c hcmem]
  · intro x hx
    have hxg : x ∈ g := by rw [hgt]; exact List.mem_cons_of_mem _ hx
    have hxc_size : x.size = c.size := by rw [hsize x hxg, hsize c hcmem]
    have hp1 : [x, c] <+ filesToCheck files := (hpairs x hx).trans hfl_sub
    have hfxc : [x, c].filter (fun y => (some y.size : Option Nat) == some c.size) = [x, c] := by
      simp [hxc_size]
    have hp2 := hp1.filter (fun y => (some y.size : Option Nat) == some c.size)
    rw [hfxc] at hp2
    have hp3 : (filesToCheck files).filter (fun y => (some y.size : Option Nat) == some c.size) <+
        (joinVals (filesBySize files)).filter
          (fun y => (some y.size : Option Nat) == some c.size) :=
      (flatten_sublist_of_sublist (List.filter_sublist _)).filter _
    rw [filter_size_joinVals files c.size] at hp3
    exact (hp2.trans hp3).trans (List.filter_sublist _)

/-- Witness for the amended C4 at three byte-identical files. -/
theorem C4_amended_canonical_largest_scan_last_witness :
    ((∀ f ∈ [egId1, egId2, egId3], ∀ bs : List Nat, f.content = some bs → bs.length = f.size) ∧
      [egId3, egId1, egId2] ∈ (findDuplicates contentHash [egId1, egId2, egId3]).1) ∧
    ∃ c t, [egId3, egId1, egId2] = c :: t ∧ (∀ x ∈ t, x.size = c.size) ∧
      ∀ x ∈ t, [x, c] <+ [egId1, egId2, egId3] :=
  ⟨⟨fun f hf bs hbs => by
      fin_cases hf <;> (injection hbs with h; rw [← h]; rfl), by decide⟩,
    C4_amended_canonical_largest_scan_last contentHash [egId1, egId2, egId3]
      (fun f hf bs hbs => by fin_cases hf <;> (injection hbs with h; rw [← h]; rfl))
      [egId3, egId1, egId2] (by decide)⟩

/-! ### The hash cache (dedupe script, lines 13-21 and 37-50)

`get_file_hash` keys the persistent cache by the f-string
`f"{file_path}:{stat.st_size}:{stat.st_mtime}"`; the cache itself is a
python dict (here: an association list with python's update semantics).
The numeric fields render as decimal tokens containing no `:`, which is
what makes a key hit require the very same `(path, size, mtime)`.
`natStr` renders a natural number the way python renders the number
(most-significant digit first, `0` as `"0"`). -/

def natStr (n : Nat) : List Char :=
  if n = 0 then ['0'] else (Nat.digits 10 n).reverse.map Nat.digitChar

def cacheKey (path : List Char) (size mtime : Nat) : List Char :=
  path ++ ':' :: (natStr size ++ ':' :: natStr mtime)

def fileKey (f : DFile) : List Char := cacheKey f.path.data f.size f.mtime

/-- `cache[key] = value` on a python dict: overwrite if present, else add. -/
def cacheStore {α : Type} : List (List Char × α) → List Char → α → List (List Char × α)
  | [], k, h => [(k, h)]
  | (k1, h1) :: rest, k, h =>
    if k1 = k then (k, h) :: rest else (k1, h1) :: cacheStore rest k h

/-- `cache[key] if key in cache else absent`. -/
def cacheLookup {α : Type} (cache : List (List Char × α)) (k : List Char) : Option α :=
  (cache.find? (fun e => e.1 == k)).map Prod.snd

theorem digitChar_inj_lt : ∀ a : Nat, a < 10 → ∀ b : Nat, b < 10 →
    Nat.digitChar a = Nat.digitChar b → a = b := by decide

theorem digitChar_ne_colon : ∀ a : Nat, a < 10 → Nat.digitChar a ≠ ':' := by decide

theorem map_digitChar_inj : ∀ l1 l2 : List Nat, (∀ x ∈ l1, x < 10) → (∀ x ∈ l2, x < 10) →
    l1.map Nat.digitChar = l2.map Nat.digitChar → l1 = l2 := by
  intro l1
  induction l1 with
  | nil =>
    intro l2 _ _ h
    cases l2 with
    | nil => rfl
    | cons y ys => simp at h
  | cons x xs ih =>
    intro l2 h1 h2 h
    cases l2 with
    | nil => simp at h
    | cons y ys =>
      simp only [List.map_cons, List.cons.injEq] at h
      have hxy : x = y := digitChar_inj_lt x (h1 x (List.mem_cons_self _ _))
        y (h2 y (List.mem_cons_self _ _)) h.1
      rw [hxy, ih ys (fun z hz => h1 z (List.mem_cons_of_mem _ hz))
        (fun z hz => h2 z (List.mem_cons_of_mem _ hz)) h.2]

theorem natStr_no_colon (n : Nat) : ':' ∉ natStr n := by
  unfold natStr
  by_cases h : n = 0
  · rw [if_pos h]
    decide
  · rw [if_neg h]
    intro hmem
    obtain ⟨d, hd, hdc⟩ := List.mem_map.mp hmem
    have hdlt : d < 10 := Nat.digits_lt_base (by norm_num) (List.mem_reverse.mp hd)
    exact digitChar_ne_colon d hdlt hdc

theorem natStr_eq_zero_str (b : Nat) (h : natStr b = ['0']) : b = 0 := by
  by_contra hb
  unfold natStr at h
  rw [if_neg hb] at h
  have hlen : ((Nat.digits 10 b).reverse.map Nat.digitChar).length = 1 := by rw [h]; rfl
  simp only [List.length_map, List.length_reverse] at hlen
  obtain ⟨d, hd⟩ := List.length_eq_one.mp hlen
  rw [hd] at h
  simp only [List.reverse_cons, List.reverse_nil, List.nil_append, List.map_cons,
    List.map_nil, List.cons.injEq, and_true] at h
  have hdlt : d < 10 := Nat.digits_lt_base (by norm_num) (by rw [hd]; exact List.mem_singleton.mpr rfl)
  have hd0 : d = 0 := digitChar_inj_lt d hdlt 0 (by norm_num) (by rw [h]; rfl)
  apply hb
  have hofd := Nat.ofDigits_digits 10 b
  rw [hd, hd0] at hofd
  simpa using hofd.symm

theorem natStr_inj (a b : Nat) (h : natStr a = natStr b) : a = b := by
  by_cases ha : a = 0 <;> by_cases hb : b = 0
  · rw [ha, hb]
  · subst ha
    exact absurd (natStr_eq_zero_str b h.symm) hb
  · subst hb
    exact absurd (natStr_eq_zero_str a h) ha
  · unfold natStr at h
    rw [if_neg ha, if_neg hb] at h
    have hrev : (Nat.digits 10 a).reverse = (Nat.digits 10 b).reverse :=
      map_digitChar_inj _ _
        (fun x hx => Nat.digits_lt_base (by norm_num) (List.mem_reverse.mp hx))
        (fun x hx => Nat.digits_lt_base (by norm_num) (List.mem_reverse.mp hx)) h
    have hdig : Nat.digits 10 a = Nat.digits 10 b := List.reverse_injective hrev
    calc a = Nat.ofDigits 10 (Nat.digits 10 a) := (Nat.ofDigits_digits 10 a).symm
      _ = Nat.ofDigits 10 (Nat.digits 10 b) := by rw [hdig]
      _ = b := Nat.ofDigits_digits 10 b

theorem colon_append_inj : ∀ a a' b b' : List Char, ':' ∉ a → ':' ∉ a' →
    a ++ ':' :: b = a' ++ ':' :: b' → a = a' ∧ b = b' := by
  intro a
  induction a with
  | nil =>
    intro a' b b' _ ha' h
    cases a' with
    | nil => simpa using h
    | cons x xs =>
      simp only [List.nil_append, List.cons_append, List.cons.injEq] at h
      apply absurd _ ha'
      rw [← h.1]
      exact List.mem_cons_self ':' xs
  | cons x xs ih =>
    intro a' b b' ha ha' h
    cases a' with
    | nil =>
      simp only [List.cons_append, List.nil_append, List.cons.injEq] at h
      apply absurd _ ha
      rw [h.1]
      exact List.mem_cons_self ':' xs
    | cons y ys =>
      simp only [List.cons_append, List.cons.injEq] at h
      obtain ⟨h1, h2⟩ := ih ys b b' (fun hm => ha (List.mem_cons_of_mem _ hm))
        (fun hm => ha' (List.mem_cons_of_mem _ hm)) h.2
      exact ⟨by rw [h.1, h1], h2⟩

theorem cacheKey_inj_of_path (path : List Char) (s m s2 m2 : Nat)
    (h : cacheKey path s m = cacheKey path s2 m2) : s = s2 ∧ m = m2 := by
  unfold cacheKey at h
  have h1 := List.append_cancel_left h
  injection h1 with _ h2
  obtain ⟨hs, hm⟩ := colon_append_inj _ _ _ _ (natStr_no_colon s) (natStr_no_colon s2) h2
  exact ⟨natStr_inj _ _ hs, natStr_inj _ _ hm⟩

theorem cacheLookup_store_self {α : Type} (c : List (List Char × α)) (k : List Char) (h : α) :
    cacheLookup (cacheStore c k h) k = some h := by
  induction c with
  | nil => simp [cacheStore, cacheLookup, List.find?]
  | cons e rest ih =>
    obtain ⟨k1, h1⟩ := e
    by_cases hk : k1 = k
    · subst hk
      simp [cacheStore, cacheLookup, List.find?]
    · simp only [cacheStore, if_neg hk]
      have hbeq : (k1 == k) = false := beq_eq_false_iff_ne.mpr hk
      simp only [cacheLookup, List.find?, hbeq]
      exact ih

theorem cacheLookup_store_other {α : Type} (c : List (List Char × α)) (k k2 : List Char)
    (h : α) (hne : k2 ≠ k) : cacheLookup (cacheStore c k h) k2 = cacheLookup c k2 := by
  induction c with
  | nil =>
    have hbeq : (k == k2) = false := beq_eq_false_iff_ne.mpr (fun hh => hne hh.symm)
    simp [cacheStore, cacheLookup, List.find?, hbeq]
  | cons e rest ih =>
    obtain ⟨k1, h1⟩ := e
    by_cases hk : k1 = k
    · subst hk
      have hbeq : (k1 == k2) = false := beq_eq_false_iff_ne.mpr (fun hh => hne hh.symm)
      simp [cacheStore, cacheLookup, List.find?, hbeq]
    · simp only [cacheStore, if_neg hk]
      cases hbeq1 : (k1 == k2) with
      | true => simp [cacheLookup, List.find?, hbeq1]
      | false =>
        simp only [cacheLookup, List.find?, hbeq1]
        exact ih

/-- C5: HashCache round trip.  After storing hash `h` under the key built
from a file's `(path, size, mtime)`, looking up the same triple returns
`h`; looking up the same path with a changed size or mtime builds a
different key string (the decimal tokens contain no `:`), so it stays a
miss rather than returning the stale hash. -/
theorem C5_cache_roundtrip {α : Type} (c : List (List Char × α)) (f f2 : DFile) (h : α)
    (hpath : f2.path = f.path) (hchange : f2.size ≠ f.size ∨ f2.mtime ≠ f.mtime)
    (habsent : cacheLookup c (fileKey f2) = none) :
    cacheLookup (cacheStore c (fileKey f) h) (fileKey f) = some h ∧
    cacheLookup (cacheStore c (fileKey f) h) (fileKey f2) = none := by
  refine ⟨cacheLookup_store_self c (fileKey f) h, ?_⟩
  have hkne : fileKey f2 ≠ fileKey f := by
    intro hh
    unfold fileKey at hh
    rw [hpath] at hh
    obtain ⟨hs, hm⟩ := cacheKey_inj_of_path f.path.data _ _ _ _ hh
    rcases hchange with h1 | h1
    · exact h1 hs
    · exact h1 hm
  rw [cacheLookup_store_other c _ _ h hkne]
  exact habsent

/-- A snapshot of the same path as `egId1` with different size and mtime. -/
def egId1b : DFile := ⟨"c1", 7, 9, none⟩

/-- Witness for C5 on an initially empty cache. -/
theorem C5_cache_roundtrip_witness :
    (egId1b.path = egId1.path ∧ (egId1b.size ≠ egId1.size ∨ egId1b.mtime ≠ egId1.mtime) ∧
      cacheLookup ([] : List (List Char × Nat)) (fileKey egId1b) = none) ∧
    (cacheLookup (cacheStore [] (fileKey egId1) (42 : Nat)) (fileKey egId1) = some 42 ∧
      cacheLookup (cacheStore [] (fileKey egId1) (42 : Nat)) (fileKey egId1b) = none) :=
  ⟨⟨rfl, Or.inl (by decide), rfl⟩,
    C5_cache_roundtrip [] egId1 egId1b 42 rfl (Or.inl (by decide)) rfl⟩

/-! ### Near-duplicate clustering (`copy_and_filter.py`)

`group_similar_images` (lines 117-143) sorts the perceptual fingerprints
by integer value and chains: an image joins the current group iff the
Hamming distance of its fingerprint to the previously grouped one is
within the threshold.  `copy_files` (lines 164-183) then copies, per
group, the member of largest `stat().st_size`. -/

/-- `bin(n).count('1')`.  Each step halves `n`, so `n` bounds the loop and
the fuel-0 branch is unreachable from `popcount`. -/
def popcountFuel : Nat → Nat → Nat
  | 0, _ => 0
  | fuel + 1, n => if n = 0 then 0 else popcountFuel fuel (n / 2) + n % 2

def popcount (n : Nat) : Nat := popcountFuel n n

/-- Line 133: `bin(img_hash ^ prev_hash).count('1')`. -/
def hammingDist (a b : Nat) : Nat := popcount (a ^^^ b)

theorem hammingDist_self (a : Nat) : hammingDist a a = 0 := by
  unfold hammingDist
  rw [Nat.xor_self]
  rfl

theorem hammingDist_comm (a b : Nat) : hammingDist a b = hammingDist b a := by
  unfold hammingDist
  rw [Nat.xor_comm]

/-- Stable insertion: the model of python's stable
`hashes_int.sort(key=lambda x: x[0])` (line 121). -/
def insertByHash (x : Nat × String) : List (Nat × String) → List (Nat × String)
  | [] => [x]
  | y :: ys => if y.1 ≤ x.1 then y :: insertByHash x ys else x :: y :: ys

def sortByHash (l : List (Nat × String)) : List (Nat × String) := l.foldr insertByHash []

/-- Lines 123-141: the chaining loop.  `cur` is the current group in
reverse (most recently appended first), so its head is
`current_group[-1]`, the immediately preceding grouped image. -/
def chainAux (t : Nat) : List (Nat × String) → List (Nat × String) → List (List (Nat × String))
  | cur, [] => [cur.reverse]
  | [], x :: xs => chainAux t [x] xs
  | p :: ps, x :: xs =>
    if hammingDist x.1 p.1 ≤ t then chainAux t (x :: p :: ps) xs
    else (p :: ps).reverse :: chainAux t [x] xs

/-- `group_similar_images` (lines 117-143). -/
def groupSimilarImages (hashes : List (Nat × String)) (t : Nat) :
    List (List (Nat × String)) :=
  match sortByHash hashes with
  | [] => []
  | x :: xs => chainAux t [x] xs

theorem chainAux_chain (t : Nat) :
    ∀ (rest cur : List (Nat × String)),
      cur.Chain' (fun a b : Nat × String => hammingDist a.1 b.1 ≤ t) →
      ∀ g ∈ chainAux t cur rest,
        g.Chain' (fun a b : Nat × String => hammingDist a.1 b.1 ≤ t) := by
  intro rest
  induction rest with
  | nil =>
    intro cur hc g hg
    simp only [chainAux, List.mem_singleton] at hg
    subst hg
    rw [List.chain'_reverse]
    exact hc.imp (fun a b hab => by
      show hammingDist b.1 a.1 ≤ t
      rw [hammingDist_comm]
      exact hab)
  | cons x xs ih =>
    intro cur hc g hg
    match cur with
    | [] => exact ih [x] (List.chain'_singleton x) g hg
    | p :: ps =>
      simp only [chainAux] at hg
      split at hg
      · rename_i hle
        exact ih (x :: p :: ps) (List.chain'_cons.mpr ⟨hle, hc⟩) g hg
      · rcases List.mem_cons.mp hg with hg1 | hg2
        · subst hg1
          rw [List.chain'_reverse]
          exact hc.imp (fun a b hab => by
            show hammingDist b.1 a.1 ≤ t
            rw [hammingDist_comm]
            exact hab)
        · exact ih [x] (List.chain'_singleton x) g hg2

theorem chain_path_from_head {β : Type} (R : β → β → Prop) :
    ∀ (xs : List β) (a : β), (a :: xs).Chain' R → ∀ b ∈ a :: xs,
      ∃ p : List β, p.head? = some a ∧ p.getLast? = some b ∧
        (∀ x ∈ p, x ∈ a :: xs) ∧ p.Chain' R := by
  intro xs
  induction xs with
  | nil =>
    intro a _ b hb
    rw [List.mem_singleton] at hb
    subst hb
    exact ⟨[b], rfl, rfl, by simp, List.chain'_singleton b⟩
  | cons y ys ih =>
    intro a hch b hb
    rcases List.mem_cons.mp hb with hba | hby
    · subst hba
      exact ⟨[b], rfl, rfl, by simp, List.chain'_singleton b⟩
    · have hcons := List.chain'_cons.mp hch
      obtain ⟨p, hph, hpl, hpm, hpc⟩ := ih y hcons.2 b hby
      match p, hph with
      | q :: p1, hph =>
        have hqy : q = y := by
          simp only [List.head?_cons, Option.some_inj] at hph
          exact hph
        refine ⟨a :: q :: p1, rfl, ?_, ?_, ?_⟩
        · rw [List.getLast?_cons_cons]
          exact hpl
        · intro z hz
          rcases List.mem_cons.mp hz with hz1 | hz2
          · rw [hz1]; exact List.mem_cons_self _ _
          · exact List.mem_cons_of_mem _ (hpm z hz2)
        · exact List.chain'_cons.mpr ⟨hqy ▸ hcons.1, hpc⟩

theorem chain_connect {β : Type} (R : β → β → Prop)
    (hsymm : ∀ a b, R a b → R b a) (hrefl : ∀ a, R a a) :
    ∀ (l : List β), l.Chain' R → ∀ a ∈ l, ∀ b ∈ l,
      ∃ p : List β, p.head? = some a ∧ p.getLast? = some b ∧
        (∀ x ∈ p, x ∈ l) ∧ p.Chain' R := by
  intro l hch a ha b hb
  match l, ha, hb with
  | x :: xs, ha, hb =>
    obtain ⟨p1, h1h, h1l, h1m, h1c⟩ := chain_path_from_head R xs x hch a ha
    obtain ⟨p2, h2h, h2l, h2m, h2c⟩ := chain_path_from_head R xs x hch b hb
    refine ⟨p1.reverse ++ p2, ?_, ?_, ?_, ?_⟩
    · have hne : p1.reverse ≠ [] := by
        intro hh
        rw [List.reverse_eq_nil_iff] at hh
        rw [hh] at h1l
        simp at h1l
      rw [List.head?_append_of_ne_nil _ hne]
      rw [List.head?_reverse]
      exact h1l
    · have hne : p2 ≠ [] := by
        intro hh
        rw [hh] at h2l
        simp at h2l
      rw [List.getLast?_append_of_ne_nil _ hne]
      exact h2l
    · intro z hz
      rcases List.mem_append.mp hz with hz1 | hz2
      · exact h1m z (List.mem_reverse.mp hz1)
      · exact h2m z hz2
    · rw [List.chain'_append]
      refine ⟨?_, h2c, ?_⟩
      · rw [List.chain'_reverse]
        exact h1c.imp (fun u v huv => hsymm u v huv)
      · intro u hu v hv
        rw [List.getLast?_reverse] at hu
        rw [h1h] at hu
        rw [h2h] at hv
        simp only [Option.mem_def, Option.some_inj] at hu hv
        rw [← hu, ← hv]
        exact hrefl x

/-- C6: any two members of one near-duplicate group are linked by a path
of group members whose consecutive Hamming distances are all within the
threshold (the chaining rule compares each image only with the previously
grouped one, so direct closeness of the two endpoints is not required). -/
theorem C6_same_group_chained (hashes : List (Nat × String)) (t : Nat)
    (g : List (Nat × String)) (hg : g ∈ groupSimilarImages hashes t)
    (a : Nat × String) (ha : a ∈ g) (b : Nat × String) (hb : b ∈ g) :
    ∃ p : List (Nat × String), p.head? = some a ∧ p.getLast? = some b ∧
      (∀ x ∈ p, x ∈ g) ∧ p.Chain' (fun x y => hammingDist x.1 y.1 ≤ t) := by
  have hchain : g.Chain' (fun x y : Nat × String => hammingDist x.1 y.1 ≤ t) := by
    rcases hsort : sortByHash hashes with _ | ⟨x, xs⟩
    · simp only [groupSimilarImages, hsort] at hg
      simp at hg
    · simp only [groupSimilarImages, hsort] at hg
      exact chainAux_chain t xs [x] (List.chain'_singleton x) g hg
  exact chain_connect _ (fun u v huv => by rw [hammingDist_comm] at huv; exact huv)
    (fun u => by rw [hammingDist_self]; exact Nat.zero_le t) g hchain a ha b hb

/-- Witness for C6: fingerprints 0, 1, 3 with threshold 1 chain into one
group even though `hammingDist 0 3 = 2 > 1`. -/
theorem C6_same_group_chained_witness :
    ([((0 : Nat), "a"), (1, "b"), (3, "c")] ∈
        groupSimilarImages [((0 : Nat), "a"), (1, "b"), (3, "c")] 1 ∧
      ((0 : Nat), "a") ∈ [((0 : Nat), "a"), (1, "b"), (3, "c")] ∧
      ((3 : Nat), "c") ∈ [((0 : Nat), "a"), (1, "b"), (3, "c")] ∧
      hammingDist 0 3 = 2) ∧
    ∃ p : List (Nat × String), p.head? = some ((0 : Nat), "a") ∧
      p.getLast? = some ((3 : Nat), "c") ∧
      (∀ x ∈ p, x ∈ [((0 : Nat), "a"), (1, "b"), (3, "c")]) ∧
      p.Chain' (fun x y => hammingDist x.1 y.1 ≤ 1) :=
  ⟨⟨by decide, by decide, by decide, by decide⟩,
    C6_same_group_chained [((0 : Nat), "a"), (1, "b"), (3, "c")] 1
      [((0 : Nat), "a"), (1, "b"), (3, "c")] (by decide)
      ((0 : Nat), "a") (by decide) ((3 : Nat), "c") (by decide)⟩

/-- Python's `max(files, key=...)`: keeps the current best unless a
strictly larger key appears (first maximum wins ties). -/
def maxBySize (sz : String → Nat) : String → List String → String
  | best, [] => best
  | best, x :: xs => if sz x > sz best then maxBySize sz x xs else maxBySize sz best xs

/-- Lines 167-168: `files = [p[1] for p in group]`,
`largest_file = max(files, key=lambda f: f.stat().st_size)`.  `sz` is the
`stat().st_size` oracle; python raises on an empty group (`none` here,
never produced by the clusterer). -/
def largestFile (sz : String → Nat) (group : List (Nat × String)) : Option String :=
  match group.map Prod.snd with
  | [] => none
  | f :: fs => some (maxBySize sz f fs)

theorem maxBySize_ge (sz : String → Nat) :
    ∀ (fs : List String) (best : String), sz best ≤ sz (maxBySize sz best fs) ∧
      ∀ x ∈ fs, sz x ≤ sz (maxBySize sz best fs) := by
  intro fs
  induction fs with
  | nil => intro best; exact ⟨Nat.le_refl _, by simp⟩
  | cons x xs ih =>
    intro best
    simp only [maxBySize]
    by_cases hgt : sz x > sz best
    · rw [if_pos hgt]
      obtain ⟨h1, h2⟩ := ih x
      refine ⟨Nat.le_trans (Nat.le_of_lt hgt) h1, fun y hy => ?_⟩
      rcases List.mem_cons.mp hy with h | h
      · rw [h]; exact h1
      · exact h2 y h
    · rw [if_neg hgt]
      obtain ⟨h1, h2⟩ := ih best
      refine ⟨h1, fun y hy => ?_⟩
      rcases List.mem_cons.mp hy with h | h
      · rw [h]; exact Nat.le_trans (Nat.le_of_not_lt hgt) h1
      · exact h2 y h

/-- C8: the canonical member of a near-duplicate group — the file
`copy_files` copies, chosen by `max(..., key=stat().st_size)` — has
`size_bytes` at least every other member's. -/
theorem C8_canonical_size_ge (sz : String → Nat) (hashes : List (Nat × String)) (t : Nat)
    (g : List (Nat × String)) (_hg : g ∈ groupSimilarImages hashes t)
    (c : String) (hc : largestFile sz g = some c) :
    ∀ x ∈ g, sz x.2 ≤ sz c := by
  intro x hx
  unfold largestFile at hc
  cases hmap : g.map Prod.snd with
  | nil => rw [hmap] at hc; exact absurd hc (by simp)
  | cons f fs =>
    rw [hmap] at hc
    have hc2 : maxBySize sz f fs = c := by
      simpa using hc
    have hxm : x.2 ∈ g.map Prod.snd := List.mem_map_of_mem Prod.snd hx
    rw [hmap] at hxm
    rcases List.mem_cons.mp hxm with h | h
    · rw [h, ← hc2]; exact (maxBySize_ge sz fs f).1
    · rw [← hc2]; exact (maxBySize_ge sz fs f).2 x.2 h

/-- Witness for C8: with sizes given by path length, the canonical member
of the single group is "bb" (size 2) and every member's size is ≤ 2. -/
theorem C8_canonical_size_ge_witness :
    ([((0 : Nat), "a"), (1, "bb"), (3, "c")] ∈
        groupSimilarImages [((0 : Nat), "a"), (1, "bb"), (3, "c")] 1 ∧
      largestFile String.length [((0 : Nat), "a"), (1, "bb"), (3, "c")] = some "bb") ∧
    ∀ x ∈ [((0 : Nat), "a"), (1, "bb"), (3, "c")], String.length x.2 ≤ String.length "bb" :=
  ⟨⟨by decide, by decide⟩,
    C8_canonical_size_ge String.length [((0 : Nat), "a"), (1, "bb"), (3, "c")] 1
      [((0 : Nat), "a"), (1, "bb"), (3, "c")] (by decide) "bb" (by decide)⟩

/-! ### Cross-tree diff (`src/cli/v2/diff/script.py`)

`find_unique_files` (lines 54-125) buckets both trees by size, hashes the
common-size buckets, byte-verifies candidate matches and accumulates four
sets.  Python's set-iteration order is unspecified; the folds below fix
one order (first-appearance order of keys), which only affects the order,
never the membership, of the returned lists. -/

/-- `compare_files` (lines 43-52): `zip` over the two chunk streams ends
as soon as EITHER file is exhausted, so only the overlapping chunks are
compared; an I/O failure returns `False`.  Fuel as in `chunkLoop`. -/
def zipChunkLoop : Nat → List Nat → List Nat → Bool
  | 0, _, _ => false
  | fuel + 1, b1, b2 =>
    if b1.isEmpty || b2.isEmpty then true
    else if b1.take 65536 ≠ b2.take 65536 then false
    else zipChunkLoop fuel (b1.drop 65536) (b2.drop 65536)

def compareFiles (f1 f2 : DFile) : Bool :=
  match f1.content, f2.content with
  | some b1, some b2 => zipChunkLoop (b1.length + 1) b1 b2
  | _, _ => false

structure DiffState where
  uniqueA : List DFile
  uniqueB : List DFile
  matchedA : List DFile
  matchedB : List DFile
deriving DecidableEq, Repr

/-- `set.add`: membership-preserving insertion. -/
def setAdd (l : List DFile) (f : DFile) : List DFile := if f ∈ l then l else l ++ [f]

/-- Bucket of a key in an insertion-ordered dict (`hashes_a[file_hash]`). -/
def dictGet {κ β : Type} [DecidableEq κ] (m : List (κ × List β)) (k : κ) : List β :=
  match m.find? (fun e => e.1 == k) with
  | some e => e.2
  | none => []

/-- Lines 92-102: for each `file_a`, scan `files_with_hash_b` and `break`
at the first byte-identical `file_b`; on a match both files are marked
matched, otherwise `file_a` is unique to A. -/
def processHashA (fbs : List DFile) (st : DiffState) (fas : List DFile) : DiffState :=
  fas.foldl (fun st fa =>
    match fbs.find? (fun fb => compareFiles fa fb) with
    | some fb => { st with matchedA := setAdd st.matchedA fa, matchedB := setAdd st.matchedB fb }
    | none => { st with uniqueA := setAdd st.uniqueA fa }) st

/-- Lines 103-105: every `file_b` of the hash bucket that is not in
`matched_files_b` is declared unique to B. -/
def processHashB (st : DiffState) (fbs : List DFile) : DiffState :=
  fbs.foldl (fun st fb =>
    if fb ∈ st.matchedB then st else { st with uniqueB := setAdd st.uniqueB fb }) st

/-- Lines 67-114: processing of one common size — hash both buckets
(skipping failed hashes), walk the common hashes through
`processHashA`/`processHashB`, then mark the hash-unique files. -/
def processSize {α : Type} [DecidableEq α] (d : List Nat → α) (st : DiffState)
    (listA listB : List DFile) : DiffState :=
  let hashesA := keyedDict (fun f => (f.content).map d) listA
  let hashesB := keyedDict (fun f => (f.content).map d) listB
  let commonHashes := (hashesA.map Prod.fst).filter (fun h => (hashesB.map Prod.fst).contains h)
  let st1 := commonHashes.foldl (fun st h =>
    processHashB (processHashA (dictGet hashesB h) st (dictGet hashesA h)) (dictGet hashesB h)) st
  let uniqueHashesA := (hashesA.map Prod.fst).filter
    (fun h => !(hashesB.map Prod.fst).contains h)
  let uniqueHashesB := (hashesB.map Prod.fst).filter
    (fun h => !(hashesA.map Prod.fst).contains h)
  let st2 := uniqueHashesA.foldl
    (fun st h => { st with uniqueA := (dictGet hashesA h).foldl setAdd st.uniqueA }) st1
  uniqueHashesB.foldl
    (fun st h => { st with uniqueB := (dictGet hashesB h).foldl setAdd st.uniqueB }) st2

/-- `find_unique_files` (lines 54-125): returns the files unique to tree A
and the files unique to tree B. -/
def findUniqueFiles {α : Type} [DecidableEq α] (d : List Nat → α)
    (filesA filesB : List DFile) : List DFile × List DFile :=
  let sizesA := keyedDict (fun f : DFile => some f.size) filesA
  let sizesB := keyedDict (fun f : DFile => some f.size) filesB
  let commonSizes := (sizesA.map Prod.fst).filter (fun s => (sizesB.map Prod.fst).contains s)
  let st1 := commonSizes.foldl
    (fun st s => processSize d st (dictGet sizesA s) (dictGet sizesB s)) ⟨[], [], [], []⟩
  let uniqueSizesA := (sizesA.map Prod.fst).filter
    (fun s => !(sizesB.map Prod.fst).contains s)
  let uniqueSizesB := (sizesB.map Prod.fst).filter
    (fun s => !(sizesA.map Prod.fst).contains s)
  let st2 := uniqueSizesA.foldl
    (fun st s => { st with uniqueA := (dictGet sizesA s).foldl setAdd st.uniqueA }) st1
  let st3 := uniqueSizesB.foldl
    (fun st s => { st with uniqueB := (dictGet sizesB s).foldl setAdd st.uniqueB }) st2
  (st3.uniqueA, st3.uniqueB)

def egA : DFile := ⟨"a", 3, 0, some [1, 2, 3]⟩
def egB1 : DFile := ⟨"b1", 3, 1, some [1, 2, 3]⟩
def egB2 : DFile := ⟨"b2", 3, 2, some [1, 2, 3]⟩

/-- C2 (code bug): tree A holds one file `a`, tree B holds two files
`b1, b2`, all three byte-identical.  `a` matches `b1` and `break`s, so
`b2` is never marked matched and `find_unique_files` reports `b2` as
unique to B, although its content exists (confirmed byte-identical) in
tree A — contradicting both the claim and the script's purpose of listing
unique files. -/
theorem C2_identical_file_reported_unique_to_b :
    compareFiles egA egB2 = true ∧ egB2.content = egA.content ∧
    findUniqueFiles (fun bs => bs) [egA] [egB1, egB2] = ([], [egB2]) := by
  decide

end Fileshaker
